import Mathlib

/-!
Verification of the stream-orchestration core of the live strategy
execution engine (`LiveStrategyExecution`).  The definitions below are a
shallow embedding of the JavaScript class: timestamps (`mts`) are modelled
as `Int` milliseconds, prices and volumes as `ℚ`, the opaque strategy
state as a type parameter `σ`, and the strategy callbacks as a record of
pure functions.  Stateful methods become explicit state-passing functions
on `EngineState`; methods that can throw (the null dereference in
`_setNextCandleTimeout`, the rejected REST fetch awaited by `_onWSOpen`)
return `Except` / report an error component.
-/

namespace StrategyExec

/-- OHLCV candle (`open` is a Lean keyword, so the JS field `open` is
named `open_` here). -/
structure Candle where
  mts : Int
  open_ : ℚ
  high : ℚ
  low : ℚ
  close : ℚ
  volume : ℚ
  symbol : String
  tf : String
deriving DecidableEq, Inhabited

/-- Public trade as delivered on the trades channel. -/
structure Trade where
  id : Int
  mts : Int
  price : ℚ
  amount : ℚ
  symbol : String
deriving DecidableEq, Inhabited

/-- Queue message (`{ type, data }` in the source).  Only the
`mts`-bearing message kinds (candles and trades) are modelled: they are
the ones the claims about queue ordering and the resume sort concern. -/
inductive Msg where
  | candle (c : Candle)
  | trade (t : Trade)
deriving DecidableEq

/-- The `data.mts` field used by the resume-sort comparator
`(a, b) => a.data.mts - b.data.mts`. -/
def Msg.mts : Msg → Int
  | Msg.candle c => c.mts
  | Msg.trade t => t.mts

/-- Boolean version of the ascending comparator used on resume. -/
def msgLe (a b : Msg) : Bool := a.mts ≤ b.mts

/-- The execution state fields of a `LiveStrategyExecution` instance
(constructor, lines 73-81).  `pausedMts` is flattened into its two
possible fields `pausedOn` / `resumedOn`; `nextCandleTimeout` holds the
delay passed to `setTimeout` when a closure timer is armed. -/
structure EngineState (σ : Type) where
  strategyState : σ
  lastCandle : Option Candle
  lastTrade : Option Trade
  lastPriceFeedUpdate : Int
  processing : Bool
  stopped : Bool
  paused : Bool
  pausedOn : Option Int
  resumedOn : Option Int
  messages : List Msg
  nextCandleTimeout : Option ℚ
deriving DecidableEq

/-- The strategy collaborator (callbacks from `bfx-hf-strategy`), an
opaque state machine over `σ`.  `getPosition` is abstracted to the
truthiness test the engine performs on its result; `symbolOf` reads the
`symbol` field the engine destructures from the strategy state. -/
structure StratOps (σ : Type) where
  onSeedCandle : σ → Candle → σ
  onCandle : σ → Candle → σ
  onTrade : σ → Trade → σ
  onEnd : Option (σ → σ)
  getPosition : σ → Bool
  closeOpenPositions : σ → σ
  symbolOf : σ → String

/-! ### Candle padding (`_padCandles`, lines 86-122, and
`_copyCandleWithNewTime`, lines 124-134) -/

/-- JS `Math.ceil(a / w)` for integer inputs and positive `w`. -/
def jsCeilDiv (a w : Int) : Int := (a + w - 1).fdiv w

/-- Source lines 124-134: copy a candle to a new timestamp, flattening
OHLC to the source candle's close and zeroing the volume. -/
def _copyCandleWithNewTime (candle : Candle) (newTime : Int) : Candle :=
  { candle with
    mts := newTime
    open_ := candle.close
    close := candle.close
    high := candle.close
    low := candle.close
    volume := 0 }

/-- Source lines 93-104: filler candles prepended when the first fetched
candle sits at or after `startTime + candleWidth`. -/
def headFillers (cw startTime : Int) (candle : Candle) : List Candle :=
  if candle.mts ≥ startTime + cw then
    let candlesToFill := jsCeilDiv (candle.mts - startTime) cw
    if candlesToFill > 0 then
      (List.range candlesToFill.toNat).map
        (fun i : Nat => _copyCandleWithNewTime candle (candle.mts - cw * (candlesToFill - (i : Int))))
    else []
  else []

/-- Source lines 106-118: filler candles spliced in after `candle` when
the next candle (or `endTime`) is more than one width away. -/
def midFillers (cw : Int) (candle : Candle) (nextCandleTime : Int) : List Candle :=
  let candlesToFill := jsCeilDiv (nextCandleTime - candle.mts) cw - 1
  if candlesToFill > 0 then
    (List.range candlesToFill.toNat).map
      (fun i : Nat => _copyCandleWithNewTime candle (candle.mts + cw * ((i : Int) + 1)))
  else []

/-- One iteration of the `for` loop of `_padCandles` (lines 89-119).
The loop state is the `paddedCandles` array together with
`addedCandlesCount`; splices become `take ++ fillers ++ drop`. -/
def padStep (candles : List Candle) (cw startTime endTime : Int)
    (st : List Candle × Nat) (i : Nat) : List Candle × Nat :=
  let padded := st.1
  let added := st.2
  let candle := candles.getD i default
  -- head-gap branch (runs only at i = 0; `headFillers` carries both guards)
  let padded1 := if i = 0 then headFillers cw startTime candle ++ padded else padded
  let added1 := if i = 0 then added + (headFillers cw startTime candle).length else added
  -- middle / end gap branch
  let nextCandleTime := match candles.get? (i + 1) with
    | some nextCandle => nextCandle.mts
    | none => endTime
  let fillers := midFillers cw candle nextCandleTime
  (padded1.take (i + 1 + added1) ++ fillers ++ padded1.drop (i + 1 + added1),
    added1 + fillers.length)

/-- Source lines 86-122 (`_padCandles(candles, candleWidth, { start, end })`):
iterate the splicing loop over every index of the input list. -/
def _padCandles (candles : List Candle) (cw startTime endTime : Int) : List Candle :=
  ((List.range candles.length).foldl (padStep candles cw startTime endTime) (candles, 0)).1

/-- Timestamp used for the gap check after `candle`: the next input
candle's `mts`, or `endTime` at the end of the list. -/
def nextTimeAfter (endTime : Int) : List Candle → Int
  | [] => endTime
  | c :: _ => c.mts

/-- Recursive characterisation of the loop's tail work: each input candle
followed by its mid/end fillers. -/
def goPad (cw endTime : Int) : List Candle → List Candle
  | [] => []
  | c :: rest => c :: (midFillers cw c (nextTimeAfter endTime rest) ++ goPad cw endTime rest)

/-- Recursive characterisation of `_padCandles` (head fillers, then each
candle with its trailing fillers).  `padCandles_eq_padRec` below proves it
equal to the spliced loop. -/
def padRec (candles : List Candle) (cw startTime endTime : Int) : List Candle :=
  match candles with
  | [] => []
  | c0 :: _ => headFillers cw startTime c0 ++ goPad cw endTime candles

/-- The expected bucket timestamps `a, a + w, …, a + (cnt − 1)·w` of the
spec's padding guarantee. -/
def bucketGrid (a : Int) (cnt : Nat) (w : Int) : List Int :=
  (List.range cnt).map (fun k : Nat => a + (k : Int) * w)

/-! ### Serial processor (`_enqueueMessage` lines 334-348,
`_processMessages` lines 353-363, `_processCandleData` lines 434-454,
`_processTradeData` lines 385-397) -/

/-- Result of `_enqueueMessage`: the updated state, and whether the
method invoked `_processMessages()` (began a drain). -/
def _enqueueMessage {σ : Type} (e : EngineState σ) (m : Msg) : EngineState σ × Bool :=
  if e.stopped then (e, false)
  else
    let e1 := { e with messages := e.messages ++ [m] }
    -- source line 341: `if (!this.processing || !this.paused)`
    if !e1.processing || !e1.paused then (e1, true) else (e1, false)

/-- Result of one `_processCandleData` call: the new engine state, the
candles passed to the strategy's `onCandle` in this call (empty or a
singleton), and whether `_emitStrategyExecutionResults` ran.  The source
also re-arms the closure timer at the end (line 453); that touches only
`nextCandleTimeout` and is modelled by `_setNextCandleTimeout` below. -/
structure CandleStep (σ : Type) where
  state : EngineState σ
  onCandleCalls : List Candle
  emittedResults : Bool
deriving DecidableEq

/-- Source lines 435-438: push the price to the price feed and advance
the monotonic watermark when the incoming `mts` is newer. -/
def updatePriceWatermark {σ : Type} (e : EngineState σ) (mtsv : Int) : EngineState σ :=
  if mtsv > e.lastPriceFeedUpdate then { e with lastPriceFeedUpdate := mtsv } else e

/-- Source lines 434-454. -/
def _processCandleData {σ : Type} (ops : StratOps σ) (e : EngineState σ) (data : Candle) :
    CandleStep σ :=
  -- lines 435-438: price-feed watermark
  let e1 := updatePriceWatermark e data.mts
  match e1.lastCandle with
  | none =>
    -- line 440: first candle received
    { state := { e1 with lastCandle := some data }
      onCandleCalls := []
      emittedResults := true }
  | some lastCandle =>
    if lastCandle.mts = data.mts then
      -- line 440: candle update event
      { state := { e1 with lastCandle := some data }
        onCandleCalls := []
        emittedResults := true }
    else if lastCandle.mts < data.mts then
      -- lines 444-449: previous candle closed
      { state := { e1 with
          strategyState := ops.onCandle e1.strategyState lastCandle
          lastCandle := some data }
        onCandleCalls := [lastCandle]
        emittedResults := true }
    else
      -- older mts: neither branch fires
      { state := e1, onCandleCalls := [], emittedResults := false }

/-- Fold a list of candle messages through `_processCandleData`,
collecting every candle handed to `onCandle`, in order. -/
def runCandles {σ : Type} (ops : StratOps σ) (e : EngineState σ) :
    List Candle → EngineState σ × List Candle
  | [] => (e, [])
  | d :: ds =>
    let r := _processCandleData ops e d
    let rest := runCandles ops r.state ds
    (rest.1, r.onCandleCalls ++ rest.2)

/-- Result of one `_processTradeData` call. -/
structure TradeStep (σ : Type) where
  state : EngineState σ
  onTradeCalls : List Trade
  emittedResults : Bool
deriving DecidableEq

/-- Accepting branch of `_processTradeData` (lines 390-396): stamp the
symbol, invoke `onTrade`, advance `lastTrade`, emit results. -/
def _acceptTrade {σ : Type} (ops : StratOps σ) (e : EngineState σ) (data : Trade) :
    TradeStep σ :=
  let data1 := { data with symbol := ops.symbolOf e.strategyState }
  { state := { e with
      strategyState := ops.onTrade e.strategyState data1
      lastTrade := some data1 }
    onTradeCalls := [data1]
    emittedResults := true }

/-- Source lines 385-397. -/
def _processTradeData {σ : Type} (ops : StratOps σ) (e : EngineState σ) (data : Trade) :
    TradeStep σ :=
  match e.lastTrade with
  | some lastTrade =>
    -- line 386: `if (this.lastTrade && this.lastTrade.id >= data.id) return`
    if lastTrade.id ≥ data.id then
      { state := e, onTradeCalls := [], emittedResults := false }
    else _acceptTrade ops e data
  | none => _acceptTrade ops e data

/-- Fold a list of trade messages through `_processTradeData`,
collecting every trade handed to `onTrade`, in order. -/
def runTrades {σ : Type} (ops : StratOps σ) (e : EngineState σ) :
    List Trade → EngineState σ × List Trade
  | [] => (e, [])
  | d :: ds =>
    let r := _processTradeData ops e d
    let rest := runTrades ops r.state ds
    (rest.1, r.onTradeCalls ++ rest.2)

/-! ### Closure timer (`_setNextCandleTimeout` lines 459-474,
`_calculateTimeToWaitForCandle` lines 479-481) -/

/-- Source lines 479-481: `cWidth * 1.5`. -/
def _calculateTimeToWaitForCandle (cWidth : Int) : ℚ := (cWidth : ℚ) * (3 / 2)

/-- Source lines 459-474.  Reads `this.lastCandle.mts` unconditionally
once past the paused/stopped guard: a `none` `lastCandle` is the JS
`TypeError` on a null dereference, modelled as `Except.error`.  On
success the armed delay (the value passed to `setTimeout`) is recorded in
`nextCandleTimeout`. -/
def _setNextCandleTimeout {σ : Type} (cWidth now : Int) (e : EngineState σ) :
    Except Unit (EngineState σ) :=
  if e.paused || e.stopped then Except.ok e
  else
    match e.lastCandle with
    | none => Except.error ()
    | some lastCandle =>
      let timeToWaitForCandle := _calculateTimeToWaitForCandle cWidth
      let sinceLastCandle : ℚ := (now : ℚ) - (lastCandle.mts : ℚ)
      Except.ok { e with nextCandleTimeout := some (timeToWaitForCandle - sinceLastCandle) }

/-! ### Pause / resume (`_onWSClose` lines 198-204, `_onWSOpen`
lines 209-233) -/

/-- Error surfaced by the resume handler: the awaited REST back-fill
rejected, or the timer re-arm dereferenced a null `lastCandle`. -/
inductive ResumeError where
  | fetchFail
  | nullDeref
deriving DecidableEq

/-- Source lines 198-204. -/
def _onWSClose {σ : Type} (now : Int) (e : EngineState σ) : EngineState σ :=
  if e.paused then e
  else { e with pausedOn := some now, paused := true }

/-- Source lines 209-233.  `fetched` is the outcome of the awaited
`_fetchCandlesForPausedDuration()`; a rejection propagates out of the
handler (nothing in the source catches it), which the model reports as
`some ResumeError.fetchFail` with the state as mutated so far.  The
returned `Bool` records whether the handler invoked `_processMessages()`
(began a queue drain) — the source never does. -/
def _onWSOpen {σ : Type} (cWidth now : Int) (fetched : Except Unit (List Candle))
    (e : EngineState σ) : EngineState σ × Option ResumeError × Bool :=
  if !e.paused then (e, none, false)
  else
    let e1 := { e with resumedOn := some now }
    match fetched with
    | Except.error _ => (e1, some ResumeError.fetchFail, false)
    | Except.ok candles =>
      let candleDataMessage := candles.map Msg.candle
      -- lines 223-227: unshift then (stable) sort by data.mts ascending
      let queue := (candleDataMessage ++ e1.messages).mergeSort msgLe
      let e2 := { e1 with
        messages := queue
        paused := false
        pausedOn := none
        resumedOn := none }
      match _setNextCandleTimeout cWidth now e2 with
      | Except.ok e3 => (e3, none, false)
      | Except.error _ => (e2, some ResumeError.nullDeref, false)

/-! ### Seeding (`_seedCandles` lines 276-329) -/

/-- Inner loop body of `_seedCandles` (lines 306-319): skip candles at or
below the last seeded `mts`, otherwise stamp `tf`/`symbol`, feed the
candle to `onSeedCandle` and advance `lastCandle`. -/
def seedCandleStep {σ : Type} (ops : StratOps σ) (tfv symbolv : String)
    (e : EngineState σ) (candle : Candle) : EngineState σ :=
  let skip : Bool := match e.lastCandle with
    | some lastCandle => lastCandle.mts ≥ candle.mts
    | none => false
  if skip then e
  else
    let c1 := { candle with tf := tfv, symbol := symbolv }
    { e with
      strategyState := ops.onSeedCandle e.strategyState c1
      lastCandle := some c1 }

/-- Source lines 276-329, with the per-window REST responses (already
padded by `_fetchCandles`) supplied as `pages`.  After all pages are
seeded the closure timer is armed (line 328). -/
def _seedCandles {σ : Type} (ops : StratOps σ) (tfv symbolv : String) (cWidth now : Int)
    (pages : List (List Candle)) (e : EngineState σ) : Except Unit (EngineState σ) :=
  let e1 := pages.foldl (fun acc page => page.foldl (seedCandleStep ops tfv symbolv) acc) e
  _setNextCandleTimeout cWidth now e1

/-! ### Lifecycle (`stopExecution` lines 565-578) -/

/-- The body of `stopExecution` acting on the strategy state
(lines 566-575): run `onEnd` when the strategy defines it, then flatten
any open position. -/
def endStep {σ : Type} (ops : StratOps σ) (s : σ) : σ :=
  let s1 := match ops.onEnd with
    | some f => f s
    | none => s
  if ops.getPosition s1 then ops.closeOpenPositions s1 else s1

/-- Source lines 565-578. -/
def stopExecution {σ : Type} (ops : StratOps σ) (e : EngineState σ) : EngineState σ :=
  { e with strategyState := endStep ops e.strategyState, stopped := true }

/-! ### Concrete inputs for witnesses and counterexamples -/

/-- Flat candle at a given timestamp and price. -/
def mkCandle (mtsv : Int) (price : ℚ) : Candle :=
  { mts := mtsv, open_ := price, high := price, low := price, close := price,
    volume := 1, symbol := "tBTCUSD", tf := "1m" }

/-- Trade with a given id and timestamp. -/
def mkTrade (idv mtsv : Int) : Trade :=
  { id := idv, mts := mtsv, price := 7, amount := 1, symbol := "" }

/-- Fresh engine state over `σ := Int` (constructor defaults,
lines 73-81). -/
def sampleEngine : EngineState Int :=
  { strategyState := 0
    lastCandle := none
    lastTrade := none
    lastPriceFeedUpdate := 0
    processing := false
    stopped := false
    paused := false
    pausedOn := none
    resumedOn := none
    messages := []
    nextCandleTimeout := none }

/-- Counting strategy over `σ := Int`: every callback increments the
state, so repeated callback invocations are observable. -/
def sampleOps : StratOps Int :=
  { onSeedCandle := fun s _ => s + 1
    onCandle := fun s _ => s + 1
    onTrade := fun s _ => s + 1
    onEnd := some (fun s => s + 1)
    getPosition := fun _ => false
    closeOpenPositions := fun s => s
    symbolOf := fun _ => "tBTCUSD" }

/-- Engine that has observed a candle at `mts = 0`. -/
def liveEngine : EngineState Int :=
  { sampleEngine with lastCandle := some (mkCandle 0 2) }

/-- Engine that went live (has a last candle) and then lost its socket. -/
def pausedEngine : EngineState Int :=
  { sampleEngine with
    paused := true
    pausedOn := some 100000
    lastCandle := some (mkCandle 60000 2) }

/-! ## Helper lemmas -/

theorem updatePriceWatermark_lastCandle {σ : Type} (e : EngineState σ) (m : Int) :
    (updatePriceWatermark e m).lastCandle = e.lastCandle := by
  unfold updatePriceWatermark; split <;> rfl

theorem updatePriceWatermark_strategyState {σ : Type} (e : EngineState σ) (m : Int) :
    (updatePriceWatermark e m).strategyState = e.strategyState := by
  unfold updatePriceWatermark; split <;> rfl

theorem updatePriceWatermark_lastTrade {σ : Type} (e : EngineState σ) (m : Int) :
    (updatePriceWatermark e m).lastTrade = e.lastTrade := by
  unfold updatePriceWatermark; split <;> rfl

theorem processCandleData_of_lastCandle_none {σ : Type} (ops : StratOps σ) (e : EngineState σ)
    (data : Candle) (h : e.lastCandle = none) :
    _processCandleData ops e data
      = { state := { updatePriceWatermark e data.mts with lastCandle := some data }
          onCandleCalls := []
          emittedResults := true } := by
  have h1 : (updatePriceWatermark e data.mts).lastCandle = none :=
    (updatePriceWatermark_lastCandle e data.mts).trans h
  simp only [_processCandleData, h1]

theorem processCandleData_of_mts_eq {σ : Type} (ops : StratOps σ) (e : EngineState σ)
    (data : Candle) (lc : Candle) (h : e.lastCandle = some lc) (hm : lc.mts = data.mts) :
    _processCandleData ops e data
      = { state := { updatePriceWatermark e data.mts with lastCandle := some data }
          onCandleCalls := []
          emittedResults := true } := by
  have h1 : (updatePriceWatermark e data.mts).lastCandle = some lc :=
    (updatePriceWatermark_lastCandle e data.mts).trans h
  simp only [_processCandleData, h1, hm, if_true, if_pos rfl]

theorem processCandleData_of_mts_lt {σ : Type} (ops : StratOps σ) (e : EngineState σ)
    (data : Candle) (lc : Candle) (h : e.lastCandle = some lc) (hm : lc.mts < data.mts) :
    _processCandleData ops e data
      = { state := { updatePriceWatermark e data.mts with
            strategyState := ops.onCandle e.strategyState lc
            lastCandle := some data }
          onCandleCalls := [lc]
          emittedResults := true } := by
  have h1 : (updatePriceWatermark e data.mts).lastCandle = some lc :=
    (updatePriceWatermark_lastCandle e data.mts).trans h
  simp only [_processCandleData, h1, if_neg hm.ne, if_pos hm,
    updatePriceWatermark_strategyState]

theorem processCandleData_of_mts_gt {σ : Type} (ops : StratOps σ) (e : EngineState σ)
    (data : Candle) (lc : Candle) (h : e.lastCandle = some lc) (hm : data.mts < lc.mts) :
    _processCandleData ops e data
      = { state := updatePriceWatermark e data.mts
          onCandleCalls := []
          emittedResults := false } := by
  have h1 : (updatePriceWatermark e data.mts).lastCandle = some lc :=
    (updatePriceWatermark_lastCandle e data.mts).trans h
  simp only [_processCandleData, h1, if_neg hm.ne', if_neg (not_lt.mpr hm.le)]

theorem processTradeData_of_drop {σ : Type} (ops : StratOps σ) (e : EngineState σ)
    (data : Trade) (lt : Trade) (h : e.lastTrade = some lt) (hid : data.id ≤ lt.id) :
    _processTradeData ops e data
      = { state := e, onTradeCalls := [], emittedResults := false } := by
  simp only [_processTradeData, h, ge_iff_le, if_pos hid]

theorem processTradeData_of_accept {σ : Type} (ops : StratOps σ) (e : EngineState σ)
    (data : Trade)
    (h : e.lastTrade = none ∨ ∃ lt, e.lastTrade = some lt ∧ lt.id < data.id) :
    _processTradeData ops e data = _acceptTrade ops e data := by
  rcases h with h | ⟨lt, h, hid⟩
  · simp only [_processTradeData, h]
  · simp only [_processTradeData, h, ge_iff_le, if_neg (not_le.mpr hid)]

/-! ## Claim C1 -/

/-- C1: the claim states a drain begins only when `processing` and
`paused` are both false.  The code's guard (line 341) is
`!this.processing || !this.paused`, so with `processing = true` and
`paused = false` (engine not stopped) `_enqueueMessage` still invokes
`_processMessages()`, starting a second concurrent drain.  This theorem
exhibits that failing input. -/
theorem C1_enqueue_starts_drain_while_processing :
    ((_enqueueMessage { sampleEngine with processing := true } (Msg.trade (mkTrade 1 1))).2
        = true)
    ∧ ({ sampleEngine with processing := true } : EngineState Int).processing = true
    ∧ ({ sampleEngine with processing := true } : EngineState Int).paused = false
    ∧ ({ sampleEngine with processing := true } : EngineState Int).stopped = false := by
  decide

/-! ## Claim C3 -/

/-- C3: when the serial processor handles a candle message: if
`lastCandle` is nil or has the same `mts`, the candle replaces
`lastCandle`, results are emitted and `onCandle` is not called (strategy
state untouched); if `lastCandle.mts < data.mts`, `onCandle` is invoked
with the previous candle `lastCandle` (not the incoming one), then
`lastCandle` is set to `data`, and results are emitted. -/
theorem C3_candle_branch_behaviour {σ : Type} (ops : StratOps σ) (e : EngineState σ)
    (data : Candle) :
    ((e.lastCandle = none ∨ (∃ lc, e.lastCandle = some lc ∧ lc.mts = data.mts)) →
      ((_processCandleData ops e data).state.lastCandle = some data ∧
       (_processCandleData ops e data).onCandleCalls = [] ∧
       (_processCandleData ops e data).state.strategyState = e.strategyState ∧
       (_processCandleData ops e data).emittedResults = true)) ∧
    (∀ lc, e.lastCandle = some lc → lc.mts < data.mts →
      ((_processCandleData ops e data).onCandleCalls = [lc] ∧
       (_processCandleData ops e data).state.strategyState = ops.onCandle e.strategyState lc ∧
       (_processCandleData ops e data).state.lastCandle = some data ∧
       (_processCandleData ops e data).emittedResults = true)) := by
  constructor
  · rintro (h | ⟨lc, h, hm⟩)
    · rw [processCandleData_of_lastCandle_none ops e data h]
      exact ⟨rfl, rfl, updatePriceWatermark_strategyState e data.mts, rfl⟩
    · rw [processCandleData_of_mts_eq ops e data lc h hm]
      exact ⟨rfl, rfl, updatePriceWatermark_strategyState e data.mts, rfl⟩
  · intro lc h hm
    rw [processCandleData_of_mts_lt ops e data lc h hm]
    exact ⟨rfl, rfl, rfl, rfl⟩

/-- Witness for C3 at concrete inputs: a first candle (nil `lastCandle`)
and a closing transition from `mts = 0` to `mts = 60000`. -/
theorem C3_candle_branch_behaviour_witness :
    ((_processCandleData sampleOps sampleEngine (mkCandle 60000 2)).state.lastCandle
        = some (mkCandle 60000 2) ∧
     (_processCandleData sampleOps sampleEngine (mkCandle 60000 2)).onCandleCalls = [] ∧
     (_processCandleData sampleOps sampleEngine (mkCandle 60000 2)).state.strategyState
        = sampleEngine.strategyState ∧
     (_processCandleData sampleOps sampleEngine (mkCandle 60000 2)).emittedResults = true) ∧
    ((_processCandleData sampleOps { sampleEngine with lastCandle := some (mkCandle 0 1) }
        (mkCandle 60000 2)).onCandleCalls = [mkCandle 0 1] ∧
     (_processCandleData sampleOps { sampleEngine with lastCandle := some (mkCandle 0 1) }
        (mkCandle 60000 2)).state.strategyState
        = sampleOps.onCandle ({ sampleEngine with
            lastCandle := some (mkCandle 0 1) } : EngineState Int).strategyState (mkCandle 0 1) ∧
     (_processCandleData sampleOps { sampleEngine with lastCandle := some (mkCandle 0 1) }
        (mkCandle 60000 2)).state.lastCandle = some (mkCandle 60000 2) ∧
     (_processCandleData sampleOps { sampleEngine with lastCandle := some (mkCandle 0 1) }
        (mkCandle 60000 2)).emittedResults = true) :=
  ⟨(C3_candle_branch_behaviour sampleOps sampleEngine (mkCandle 60000 2)).1 (Or.inl rfl),
   (C3_candle_branch_behaviour sampleOps
      { sampleEngine with lastCandle := some (mkCandle 0 1) } (mkCandle 60000 2)).2
     (mkCandle 0 1) rfl (by decide)⟩

/-! ## Claim C5 -/

/-- C5 counterexample: with the engine paused, a failed back-fill fetch
makes the resume handler propagate the rejection (`fetchFail` surfaces)
and the engine stays paused — contradicting the claim that the error is
swallowed and the engine leaves the paused state. -/
theorem C5_fetch_failure_propagates_counterexample :
    ((_onWSOpen 60000 400000 (Except.error ()) pausedEngine).2.1
        = some ResumeError.fetchFail) ∧
    ((_onWSOpen 60000 400000 (Except.error ()) pausedEngine).1.paused = true) := by
  decide

/-- C5 amended: the rejected fetch propagates out of `_onWSOpen`
(nothing in the source catches it); the engine keeps `paused = true`
with only `resumedOn` newly recorded, so back-fill is retried on the
next socket `open` instead of the engine resuming without it. -/
theorem C5_amended_fetch_failure {σ : Type} (cw now : Int) (e : EngineState σ)
    (h : e.paused = true) :
    _onWSOpen cw now (Except.error ()) e
      = ({ e with resumedOn := some now }, some ResumeError.fetchFail, false) := by
  simp [_onWSOpen, h]

/-- Witness for the amended C5 on the concrete paused engine. -/
theorem C5_amended_fetch_failure_witness :
    _onWSOpen 60000 400000 (Except.error ()) pausedEngine
      = ({ pausedEngine with resumedOn := some 400000 }, some ResumeError.fetchFail, false) :=
  C5_amended_fetch_failure 60000 400000 pausedEngine rfl

/-! ## Claim C6 -/

/-- C6 counterexample: with a strategy whose `onEnd` increments the
state, two `stopExecution` calls leave strategy state `2` while one call
leaves `1` — `stopExecution` re-runs `onEnd` because nothing guards
against a second invocation. -/
theorem C6_stopExecution_not_idempotent_counterexample :
    stopExecution sampleOps (stopExecution sampleOps sampleEngine)
      ≠ stopExecution sampleOps sampleEngine := by
  decide

/-- C6 amended: `stopExecution` latches `stopped = true` and enqueues
after it are dropped without starting a drain, but the call itself is
not guarded: a second call applies the `onEnd`/close-position sequence
(`endStep`) a second time, so double invocation equals single invocation
only when that sequence is idempotent on the reached state. -/
theorem C6_amended_double_stop {σ : Type} (ops : StratOps σ) (e : EngineState σ) :
    (stopExecution ops e).stopped = true ∧
    stopExecution ops (stopExecution ops e)
      = { e with strategyState := endStep ops (endStep ops e.strategyState), stopped := true } ∧
    (∀ m, _enqueueMessage (stopExecution ops e) m = (stopExecution ops e, false)) := by
  refine ⟨rfl, rfl, fun m => ?_⟩
  simp [_enqueueMessage, stopExecution]

/-! ## Claim C8 -/

/-- C8 counterexample: after a candle at `mts = 0` with `w = 60000`, at
wall time `now = 180000` the armed delay is `1.5·w − (now − mts) =
−90000 < 0`: the source (lines 467-469) computes the delay with no floor
at zero, contradicting the claimed clamping. -/
theorem C8_negative_timeout_counterexample :
    ((_setNextCandleTimeout 60000 180000 liveEngine).toOption.map
      (fun s => s.nextCandleTimeout)) = some (some (-90000 : ℚ)) ∧
    ((-90000 : ℚ) < 0) := by
  refine ⟨?_, by norm_num⟩
  simp only [_setNextCandleTimeout, _calculateTimeToWaitForCandle, liveEngine, sampleEngine,
    mkCandle, Except.toOption, Option.map]
  norm_num

/-- C8 amended: the armed delay equals `1.5·w − (now − lastCandle.mts)`
exactly, with no lower clamp; it is negative precisely when `now` is past
`lastCandle.mts + 1.5·w` (the host `setTimeout` then fires immediately,
which is where the claimed behaviour actually comes from). -/
theorem C8_amended_timeout_unfloored {σ : Type} (cw now : Int) (e : EngineState σ)
    (lc : Candle) (hp : e.paused = false) (hs : e.stopped = false)
    (hl : e.lastCandle = some lc) :
    _setNextCandleTimeout cw now e
      = Except.ok { e with nextCandleTimeout := some (_calculateTimeToWaitForCandle cw - ((now : ℚ) - (lc.mts : ℚ))) } ∧
    (_calculateTimeToWaitForCandle cw - ((now : ℚ) - (lc.mts : ℚ)) < 0 ↔
      (lc.mts : ℚ) + (cw : ℚ) * (3 / 2) < (now : ℚ)) := by
  constructor
  · simp [_setNextCandleTimeout, hp, hs, hl]
  · unfold _calculateTimeToWaitForCandle
    constructor <;> intro h <;> linarith

/-- Witness for the amended C8 at `w = 60000`, `mts = 0`,
`now = 180000`. -/
theorem C8_amended_timeout_unfloored_witness :
    _setNextCandleTimeout 60000 180000 liveEngine
      = Except.ok { liveEngine with nextCandleTimeout := some (_calculateTimeToWaitForCandle 60000 - ((180000 : ℚ) - (((mkCandle 0 2).mts : Int) : ℚ))) } ∧
    (_calculateTimeToWaitForCandle 60000 - ((180000 : ℚ) - (((mkCandle 0 2).mts : Int) : ℚ)) < 0 ↔
      (((mkCandle 0 2).mts : Int) : ℚ) + (60000 : ℚ) * (3 / 2) < (180000 : ℚ)) :=
  C8_amended_timeout_unfloored 60000 180000 liveEngine (mkCandle 0 2) rfl rfl rfl

/-! ## Claim C2 -/

/-- Invariant of the candle-processing fold: the collected `onCandle`
arguments are strictly increasing in `mts`, and every collected candle
has `mts` at least the `mts` of the `lastCandle` held on entry. -/
theorem runCandles_calls {σ : Type} (ops : StratOps σ) :
    ∀ (ds : List Candle) (e : EngineState σ),
      List.Chain' (fun a b : Candle => a.mts < b.mts) (runCandles ops e ds).2 ∧
      ∀ x ∈ (runCandles ops e ds).2, ∀ c, e.lastCandle = some c → c.mts ≤ x.mts := by
  intro ds
  induction ds with
  | nil =>
    intro e
    exact ⟨List.chain'_nil, by intro x hx; simp [runCandles] at hx⟩
  | cons d ds ih =>
    intro e
    have hrw : runCandles ops e (d :: ds)
        = ((runCandles ops (_processCandleData ops e d).state ds).1,
           (_processCandleData ops e d).onCandleCalls
             ++ (runCandles ops (_processCandleData ops e d).state ds).2) := rfl
    rw [hrw]
    cases hl : e.lastCandle with
    | none =>
      rw [processCandleData_of_lastCandle_none ops e d hl]
      obtain ⟨ihc, ihm⟩ :=
        ih { updatePriceWatermark e d.mts with lastCandle := some d }
      refine ⟨by simpa using ihc, ?_⟩
      intro x hx c hc
      exact Option.noConfusion hc
    | some lc =>
      rcases lt_trichotomy lc.mts d.mts with hm | hm | hm
      · -- close-out branch: onCandle is fed the previous candle lc
        rw [processCandleData_of_mts_lt ops e d lc hl hm]
        obtain ⟨ihc, ihm⟩ :=
          ih { updatePriceWatermark e d.mts with
                strategyState := ops.onCandle e.strategyState lc
                lastCandle := some d }
        constructor
        · simp only [List.singleton_append]
          refine List.chain'_cons'.mpr ⟨?_, ihc⟩
          intro y hy
          exact lt_of_lt_of_le hm (ihm y (List.mem_of_mem_head? hy) d rfl)
        · intro x hx c hc
          injection hc with hc
          rw [← hc]
          simp only [List.singleton_append, List.mem_cons] at hx
          rcases hx with rfl | hx
          · exact le_refl _
          · exact le_of_lt (lt_of_lt_of_le hm (ihm x hx d rfl))
      · -- in-progress update: same mts, no call
        rw [processCandleData_of_mts_eq ops e d lc hl hm]
        obtain ⟨ihc, ihm⟩ :=
          ih { updatePriceWatermark e d.mts with lastCandle := some d }
        refine ⟨by simpa using ihc, ?_⟩
        intro x hx c hc
        injection hc with hc
        rw [← hc]
        simp only [List.nil_append] at hx
        calc lc.mts = d.mts := hm
        _ ≤ x.mts := ihm x hx d rfl
      · -- stale candle: dropped, lastCandle unchanged
        rw [processCandleData_of_mts_gt ops e d lc hl hm]
        obtain ⟨ihc, ihm⟩ := ih (updatePriceWatermark e d.mts)
        refine ⟨by simpa using ihc, ?_⟩
        intro x hx c hc
        injection hc with hc
        rw [← hc]
        simp only [List.nil_append] at hx
        exact ihm x hx lc ((updatePriceWatermark_lastCandle e d.mts).trans hl)

/-- C2: across any candle sequence fed to the serial processor (live,
back-fill, or watchdog-synthesized — all go through
`_processCandleData`), the candles handed to `onCandle` have strictly
increasing `mts`; a candle older than `lastCandle` is dropped without
reaching `onCandle` and leaves `lastCandle` unchanged. -/
theorem C2_onCandle_strictly_increasing {σ : Type} (ops : StratOps σ) (e : EngineState σ)
    (ds : List Candle) :
    List.Chain' (fun a b : Candle => a.mts < b.mts) (runCandles ops e ds).2 ∧
    (∀ data lc, e.lastCandle = some lc → data.mts < lc.mts →
      (_processCandleData ops e data).onCandleCalls = [] ∧
      (_processCandleData ops e data).state.lastCandle = some lc) := by
  refine ⟨(runCandles_calls ops ds e).1, ?_⟩
  intro data lc hl hm
  rw [processCandleData_of_mts_gt ops e data lc hl hm]
  exact ⟨rfl, (updatePriceWatermark_lastCandle e data.mts).trans hl⟩

/-- Witness for C2: a concrete three-candle run, and a stale candle
(`mts = 0` against `lastCandle.mts = 60000`) that is dropped. -/
theorem C2_onCandle_strictly_increasing_witness :
    List.Chain' (fun a b : Candle => a.mts < b.mts)
      (runCandles sampleOps sampleEngine
        [mkCandle 0 1, mkCandle 60000 2, mkCandle 120000 3]).2 ∧
    ((_processCandleData sampleOps { sampleEngine with lastCandle := some (mkCandle 60000 2) }
        (mkCandle 0 1)).onCandleCalls = [] ∧
     (_processCandleData sampleOps { sampleEngine with lastCandle := some (mkCandle 60000 2) }
        (mkCandle 0 1)).state.lastCandle = some (mkCandle 60000 2)) :=
  ⟨(C2_onCandle_strictly_increasing sampleOps sampleEngine
      [mkCandle 0 1, mkCandle 60000 2, mkCandle 120000 3]).1,
   (C2_onCandle_strictly_increasing sampleOps
      { sampleEngine with lastCandle := some (mkCandle 60000 2) } []).2
     (mkCandle 0 1) (mkCandle 60000 2) rfl (by decide)⟩

/-! ## Claim C9 -/

/-- Invariant of the trade-processing fold: collected `onTrade` arguments
are strictly increasing in `id`, each strictly above the entry
`lastTrade` id. -/
theorem runTrades_calls {σ : Type} (ops : StratOps σ) :
    ∀ (ts : List Trade) (e : EngineState σ),
      List.Chain' (fun a b : Trade => a.id < b.id) (runTrades ops e ts).2 ∧
      ∀ x ∈ (runTrades ops e ts).2, ∀ t, e.lastTrade = some t → t.id < x.id := by
  intro ts
  induction ts with
  | nil =>
    intro e
    exact ⟨List.chain'_nil, by intro x hx; simp [runTrades] at hx⟩
  | cons d ts ih =>
    intro e
    have hrw : runTrades ops e (d :: ts)
        = ((runTrades ops (_processTradeData ops e d).state ts).1,
           (_processTradeData ops e d).onTradeCalls
             ++ (runTrades ops (_processTradeData ops e d).state ts).2) := rfl
    rw [hrw]
    cases hl : e.lastTrade with
    | none =>
      rw [processTradeData_of_accept ops e d (Or.inl hl)]
      obtain ⟨ihc, ihm⟩ := ih (_acceptTrade ops e d).state
      constructor
      · simp only [_acceptTrade, List.singleton_append]
        refine List.chain'_cons'.mpr ⟨?_, ihc⟩
        intro y hy
        exact ihm y (List.mem_of_mem_head? hy)
          { d with symbol := ops.symbolOf e.strategyState } rfl
      · intro x hx t ht
        exact Option.noConfusion ht
    | some lt =>
      rcases le_or_lt d.id lt.id with hid | hid
      · rw [processTradeData_of_drop ops e d lt hl hid]
        obtain ⟨ihc, ihm⟩ := ih e
        refine ⟨by simpa using ihc, ?_⟩
        intro x hx t ht
        simp only [List.nil_append] at hx
        injection ht with ht
        rw [← ht]
        exact ihm x hx lt hl
      · rw [processTradeData_of_accept ops e d (Or.inr ⟨lt, hl, hid⟩)]
        obtain ⟨ihc, ihm⟩ := ih (_acceptTrade ops e d).state
        constructor
        · simp only [_acceptTrade, List.singleton_append]
          refine List.chain'_cons'.mpr ⟨?_, ihc⟩
          intro y hy
          exact ihm y (List.mem_of_mem_head? hy)
            { d with symbol := ops.symbolOf e.strategyState } rfl
        · intro x hx t ht
          injection ht with ht
          rw [← ht]
          simp only [_acceptTrade, List.singleton_append, List.mem_cons] at hx
          rcases hx with rfl | hx
          · exact hid
          · exact lt_trans hid (ihm x hx
              { d with symbol := ops.symbolOf e.strategyState } rfl)

/-- C9: a trade with `id ≤ lastTrade.id` is dropped with no callback and
no state change; hence `onTrade` sees strictly increasing ids; an
accepted trade is stamped with the strategy symbol, advances
`lastTrade`, updates the strategy state via `onTrade`, and emits
results. -/
theorem C9_trade_dedup {σ : Type} (ops : StratOps σ) (e : EngineState σ) (ts : List Trade) :
    List.Chain' (fun a b : Trade => a.id < b.id) (runTrades ops e ts).2 ∧
    (∀ data lt, e.lastTrade = some lt → data.id ≤ lt.id →
      _processTradeData ops e data
        = { state := e, onTradeCalls := [], emittedResults := false }) ∧
    (∀ data, (e.lastTrade = none ∨ ∃ lt, e.lastTrade = some lt ∧ lt.id < data.id) →
      (_processTradeData ops e data).onTradeCalls
          = [{ data with symbol := ops.symbolOf e.strategyState }] ∧
      (_processTradeData ops e data).state.lastTrade
          = some { data with symbol := ops.symbolOf e.strategyState } ∧
      (_processTradeData ops e data).state.strategyState
          = ops.onTrade e.strategyState { data with symbol := ops.symbolOf e.strategyState } ∧
      (_processTradeData ops e data).emittedResults = true) := by
  refine ⟨(runTrades_calls ops ts e).1, ?_, ?_⟩
  · intro data lt hl hid
    exact processTradeData_of_drop ops e data lt hl hid
  · intro data h
    rw [processTradeData_of_accept ops e data h]
    exact ⟨rfl, rfl, rfl, rfl⟩

/-- Witness for C9: the trade run `id = 1, 2, 2, 3`, the duplicate drop
at `id = 2`, and an accepted trade at `id = 3`. -/
theorem C9_trade_dedup_witness :
    List.Chain' (fun a b : Trade => a.id < b.id)
      (runTrades sampleOps sampleEngine
        [mkTrade 1 0, mkTrade 2 1, mkTrade 2 2, mkTrade 3 3]).2 ∧
    _processTradeData sampleOps { sampleEngine with lastTrade := some (mkTrade 2 1) }
        (mkTrade 2 2)
      = { state := { sampleEngine with lastTrade := some (mkTrade 2 1) },
          onTradeCalls := [], emittedResults := false } ∧
    (_processTradeData sampleOps { sampleEngine with lastTrade := some (mkTrade 2 1) }
        (mkTrade 3 3)).onTradeCalls
      = [{ mkTrade 3 3 with symbol := sampleOps.symbolOf ({ sampleEngine with lastTrade := some (mkTrade 2 1) } : EngineState Int).strategyState }] :=
  ⟨(C9_trade_dedup sampleOps sampleEngine
      [mkTrade 1 0, mkTrade 2 1, mkTrade 2 2, mkTrade 3 3]).1,
   (C9_trade_dedup sampleOps { sampleEngine with lastTrade := some (mkTrade 2 1) } []).2.1
     (mkTrade 2 2) (mkTrade 2 1) rfl (by decide),
   ((C9_trade_dedup sampleOps { sampleEngine with lastTrade := some (mkTrade 2 1) } []).2.2
     (mkTrade 3 3) (Or.inr ⟨mkTrade 2 1, rfl, by decide⟩)).1⟩

/-! ## Claim C10 -/

/-- Folding only empty fetch pages leaves the engine state unchanged. -/
theorem foldl_pages_of_empty {σ : Type} (f : EngineState σ → Candle → EngineState σ) :
    ∀ (pages : List (List Candle)) (e : EngineState σ), (∀ p ∈ pages, p = []) →
      pages.foldl (fun acc page => page.foldl f acc) e = e := by
  intro pages
  induction pages with
  | nil => intro e _; rfl
  | cons p ps ih =>
    intro e h
    have hp : p = [] := h p (List.mem_cons_self p ps)
    rw [List.foldl_cons, hp, List.foldl_nil]
    exact ih e fun q hq => h q (List.mem_cons_of_mem p hq)

/-- C10: `_setNextCandleTimeout` dereferences `lastCandle.mts`
unconditionally once past the paused/stopped guard, so when seeding
completes with zero candles (every fetch page empty) `lastCandle` is
still nil and `_seedCandles` — and with it `execute` — fails with the
null-dereference error instead of reaching live subscription. -/
theorem C10_empty_seed_null_deref {σ : Type} (ops : StratOps σ) (tfv symbolv : String)
    (cw now : Int) (pages : List (List Candle)) (e : EngineState σ)
    (hpages : ∀ p ∈ pages, p = []) (hlc : e.lastCandle = none)
    (hp : e.paused = false) (hs : e.stopped = false) :
    _seedCandles ops tfv symbolv cw now pages e = Except.error () ∧
    _setNextCandleTimeout cw now e = Except.error () := by
  have htimer : _setNextCandleTimeout cw now e = Except.error () := by
    simp [_setNextCandleTimeout, hp, hs, hlc]
  refine ⟨?_, htimer⟩
  unfold _seedCandles
  rw [foldl_pages_of_empty (seedCandleStep ops tfv symbolv) pages e hpages]
  exact htimer

/-- Witness for C10: a single empty fetch page on a fresh engine. -/
theorem C10_empty_seed_null_deref_witness :
    _seedCandles sampleOps "1m" "tBTCUSD" 60000 0 [[]] sampleEngine = Except.error () ∧
    _setNextCandleTimeout 60000 0 sampleEngine = Except.error () :=
  C10_empty_seed_null_deref sampleOps "1m" "tBTCUSD" 60000 0 [[]] sampleEngine
    (by intro p hp; simpa using hp) rfl rfl rfl

/-! ## Claim C4 -/

/-- The resume-sort comparator is transitive. -/
theorem msgLe_trans (a b c : Msg) (h1 : msgLe a b = true) (h2 : msgLe b c = true) :
    msgLe a c = true := by
  simp only [msgLe, decide_eq_true_eq] at h1 h2 ⊢
  exact le_trans h1 h2

/-- The resume-sort comparator is total. -/
theorem msgLe_total (a b : Msg) : (msgLe a b || msgLe b a) = true := by
  simp only [msgLe, Bool.or_eq_true, decide_eq_true_eq]
  exact le_total a.mts b.mts

/-- C4 counterexample: on resume with one back-fill candle, `_onWSOpen`
returns without invoking `_processMessages()`: the back-fill message is
left sitting in the queue with `processing = false` — the handler does
not resume draining (draining restarts only at the next enqueue),
contradicting the final conjunct of the claim. -/
theorem C4_no_drain_on_resume_counterexample :
    ((_onWSOpen 60000 400000 (Except.ok [mkCandle 120000 3]) pausedEngine).2.2 = false) ∧
    ((_onWSOpen 60000 400000 (Except.ok [mkCandle 120000 3]) pausedEngine).1.messages
        = [Msg.candle (mkCandle 120000 3)]) ∧
    ((_onWSOpen 60000 400000 (Except.ok [mkCandle 120000 3]) pausedEngine).1.processing
        = false) := by
  refine ⟨rfl, ?_, rfl⟩
  simp [_onWSOpen, _setNextCandleTimeout, pausedEngine, sampleEngine]

/-- C4 amended: on socket `open` while paused (engine not stopped, a
last candle on record), the handler converts the back-fill to candle
messages, unshifts them, stable-sorts the whole queue by `data.mts`
ascending (`mergeSort`: the result is a sorted permutation), clears
`paused` and `pausedMts`, and re-arms the closure timer — but it does
not itself restart draining: queued messages wait for the next enqueue. -/
theorem C4_amended_resume {σ : Type} (cw now : Int) (candles : List Candle)
    (e : EngineState σ) (lc : Candle) (hp : e.paused = true) (hs : e.stopped = false)
    (hl : e.lastCandle = some lc) :
    _onWSOpen cw now (Except.ok candles) e
      = ({ e with messages := (candles.map Msg.candle ++ e.messages).mergeSort msgLe, paused := false, pausedOn := none, resumedOn := none, nextCandleTimeout := some (_calculateTimeToWaitForCandle cw - ((now : ℚ) - (lc.mts : ℚ))) }, none, false) ∧
    ((candles.map Msg.candle ++ e.messages).mergeSort msgLe).Perm
      (candles.map Msg.candle ++ e.messages) ∧
    List.Pairwise (fun a b : Msg => a.mts ≤ b.mts)
      ((candles.map Msg.candle ++ e.messages).mergeSort msgLe) := by
  refine ⟨?_, List.mergeSort_perm _ _, ?_⟩
  · simp [_onWSOpen, _setNextCandleTimeout, hp, hs, hl]
  · have hs2 := @List.sorted_mergeSort Msg msgLe msgLe_trans msgLe_total
      (candles.map Msg.candle ++ e.messages)
    exact hs2.imp (by intro a b h; simpa [msgLe, decide_eq_true_eq] using h)

/-- Witness for the amended C4 on the concrete paused engine with one
back-fill candle. -/
theorem C4_amended_resume_witness :
    _onWSOpen 60000 400000 (Except.ok [mkCandle 120000 3]) pausedEngine
      = ({ pausedEngine with messages := ([mkCandle 120000 3].map Msg.candle ++ pausedEngine.messages).mergeSort msgLe, paused := false, pausedOn := none, resumedOn := none, nextCandleTimeout := some (_calculateTimeToWaitForCandle 60000 - ((400000 : ℚ) - (((mkCandle 60000 2).mts : Int) : ℚ))) }, none, false) ∧
    (([mkCandle 120000 3].map Msg.candle ++ pausedEngine.messages).mergeSort msgLe).Perm
      ([mkCandle 120000 3].map Msg.candle ++ pausedEngine.messages) ∧
    List.Pairwise (fun a b : Msg => a.mts ≤ b.mts)
      (([mkCandle 120000 3].map Msg.candle ++ pausedEngine.messages).mergeSort msgLe) :=
  C4_amended_resume 60000 400000 [mkCandle 120000 3] pausedEngine (mkCandle 60000 2)
    rfl rfl rfl

/-! ## Claim C7 -/

theorem jsCeilDiv_mul_self (k w : Int) (hw : 0 < w) : jsCeilDiv (k * w) w = k := by
  unfold jsCeilDiv
  rw [Int.fdiv_eq_ediv _ (le_of_lt hw)]
  have h1 : k * w + w - 1 = (w - 1) + k * w := by ring
  rw [h1, Int.add_mul_ediv_right _ _ (ne_of_gt hw),
    Int.ediv_eq_zero_of_lt (by omega) (by omega), zero_add]

theorem jsCeilDiv_pred_mul_lt (g w : Int) (hw : 0 < w) : (jsCeilDiv g w - 1) * w < g := by
  unfold jsCeilDiv
  rw [Int.fdiv_eq_ediv _ (le_of_lt hw)]
  have h := Int.ediv_mul_le (g + w - 1) (ne_of_gt hw)
  have h2 : ((g + w - 1) / w - 1) * w = ((g + w - 1) / w) * w - w := by ring
  rw [h2]
  omega

theorem padStep_zero_formula (c0 : Candle) (cs : List Candle) (cw s eT : Int) :
    padStep (c0 :: cs) cw s eT (c0 :: cs, 0) 0
      = (headFillers cw s c0 ++ c0 :: (midFillers cw c0 (nextTimeAfter eT cs) ++ cs),
         (headFillers cw s c0).length + (midFillers cw c0 (nextTimeAfter eT cs)).length) := by
  have hnt : (match (c0 :: cs).get? (0 + 1) with
      | some nc => nc.mts
      | none => eT) = nextTimeAfter eT cs := by
    cases cs <;> rfl
  simp only [padStep, List.getD_cons_zero, if_pos rfl, if_true, hnt]
  have hassoc : headFillers cw s c0 ++ c0 :: cs = (headFillers cw s c0 ++ [c0]) ++ cs := by
    simp
  have hpos : 0 + 1 + (0 + (headFillers cw s c0).length)
      = (headFillers cw s c0 ++ [c0]).length := by
    simp [Nat.add_comm]
  rw [hassoc, hpos, List.take_left, List.drop_left]
  simp

theorem padStep_succ_formula (candles : List Candle) (cw s eT : Int) (i : Nat)
    (pre : List Candle) (added : Nat) (ci : Candle) (rest : List Candle)
    (hi : candles.drop i = ci :: rest)
    (hpl : pre.length = i + added)
    (hnz : i ≠ 0) :
    padStep candles cw s eT (pre ++ ci :: rest, added) i
      = (pre ++ ci :: (midFillers cw ci (nextTimeAfter eT rest) ++ rest),
         added + (midFillers cw ci (nextTimeAfter eT rest)).length) := by
  have hlt : i < candles.length := by
    have hlen := congrArg List.length hi
    simp [List.length_drop] at hlen
    omega
  have hci : candles[i] = ci := by
    have := (List.drop_eq_getElem_cons hlt).symm.trans hi
    exact (List.cons.injEq _ _ _ _).mp this |>.1
  have hrest : candles.drop (i + 1) = rest := by
    have := (List.drop_eq_getElem_cons hlt).symm.trans hi
    exact (List.cons.injEq _ _ _ _).mp this |>.2
  have hgetD : candles.getD i default = ci := by
    rw [List.getD_eq_getElem candles default hlt, hci]
  have hnt : (match candles.get? (i + 1) with
      | some nc => nc.mts
      | none => eT) = nextTimeAfter eT rest := by
    have hh : candles.get? (i + 1) = rest.head? := by
      rw [List.get?_eq_getElem?, ← List.head?_drop, hrest]
    rw [hh]
    cases rest <;> rfl
  have hassoc : pre ++ ci :: rest = (pre ++ [ci]) ++ rest := by simp
  have hpos : i + 1 + added = (pre ++ [ci]).length := by simp [hpl]; omega
  simp only [padStep, hgetD, if_neg hnz, hnt]
  rw [hassoc, hpos, List.take_left, List.drop_left]
  simp

theorem padFold_invariant (cw s eT : Int) (c0 : Candle) (cs : List Candle) :
    ∀ i : Nat, 1 ≤ i → i ≤ (c0 :: cs).length →
      ∃ done : List Candle,
        goPad cw eT (c0 :: cs) = done ++ goPad cw eT ((c0 :: cs).drop i) ∧
        i ≤ done.length ∧
        (List.range i).foldl (padStep (c0 :: cs) cw s eT) (c0 :: cs, 0)
          = (headFillers cw s c0 ++ (done ++ (c0 :: cs).drop i),
             (headFillers cw s c0).length + (done.length - i)) := by
  intro i
  induction i with
  | zero => intro h1 _; exact absurd h1 (by omega)
  | succ i ih =>
    intro _ hlen
    rcases Nat.eq_zero_or_pos i with rfl | hipos
    · refine ⟨c0 :: midFillers cw c0 (nextTimeAfter eT cs), ?_, by simp, ?_⟩
      · rw [goPad]
        simp
      · rw [List.range_succ, List.range_zero, List.nil_append, List.foldl_cons,
          List.foldl_nil, padStep_zero_formula]
        rw [Prod.mk.injEq]
        constructor
        · simp
        · simp
    · obtain ⟨done, hgo, hdlen, hfold⟩ := ih hipos (by omega)
      have hlt : i < (c0 :: cs).length := by omega
      have hdropi := List.drop_eq_getElem_cons hlt
      rw [List.range_succ, List.foldl_append, List.foldl_cons, List.foldl_nil, hfold]
      have hstate : headFillers cw s c0 ++ (done ++ (c0 :: cs).drop i)
          = (headFillers cw s c0 ++ done) ++ (c0 :: cs)[i] :: (c0 :: cs).drop (i + 1) := by
        rw [hdropi]
        simp [List.append_assoc]
      rw [hstate]
      rw [padStep_succ_formula (c0 :: cs) cw s eT i (headFillers cw s c0 ++ done)
            ((headFillers cw s c0).length + (done.length - i)) ((c0 :: cs)[i])
            ((c0 :: cs).drop (i + 1)) hdropi (by simp; omega) (by omega)]
      refine ⟨done ++ (c0 :: cs)[i]
          :: midFillers cw ((c0 :: cs)[i]) (nextTimeAfter eT ((c0 :: cs).drop (i + 1))),
        ?_, by simp; omega, ?_⟩
      · rw [hgo, hdropi]
        have hunf : goPad cw eT ((c0 :: cs)[i] :: (c0 :: cs).drop (i + 1))
            = (c0 :: cs)[i] :: (midFillers cw ((c0 :: cs)[i])
                (nextTimeAfter eT ((c0 :: cs).drop (i + 1)))
              ++ goPad cw eT ((c0 :: cs).drop (i + 1))) := rfl
        rw [hunf]
        simp [List.append_assoc]
      · rw [Prod.mk.injEq]
        constructor
        · simp [List.append_assoc]
        · simp
          omega

theorem padCandles_eq_padRec (candles : List Candle) (cw s eT : Int) :
    _padCandles candles cw s eT = padRec candles cw s eT := by
  cases candles with
  | nil => rfl
  | cons c0 cs =>
    obtain ⟨done, hgo, hdlen, hfold⟩ :=
      padFold_invariant cw s eT c0 cs (c0 :: cs).length (by simp) (le_refl _)
    have h1 : (c0 :: cs).drop (c0 :: cs).length = [] := List.drop_length _
    rw [h1] at hgo hfold
    have hgo2 : goPad cw eT (c0 :: cs) = done := by
      rw [hgo]
      simp [goPad]
    unfold _padCandles padRec
    rw [hfold]
    simp [hgo2]

theorem headFillers_eq_map_grid (w s : Int) (hw : 0 < w) (c : Candle) (k0 : Nat)
    (hm : c.mts = s + (k0 : Int) * w) :
    headFillers w s c
      = (List.range k0).map (fun j : Nat => _copyCandleWithNewTime c (s + (j : Int) * w)) := by
  rcases Nat.eq_zero_or_pos k0 with rfl | hk
  · have h0 : c.mts = s := by simpa using hm
    simp only [headFillers]
    rw [if_neg (by omega)]
    simp
  · have hk1 : (1 : Int) ≤ (k0 : Int) := by exact_mod_cast hk
    have hge : c.mts ≥ s + w := by nlinarith [hm]
    have hsub : c.mts - s = (k0 : Int) * w := by rw [hm]; ring
    have hceil : jsCeilDiv (c.mts - s) w = (k0 : Int) := by
      rw [hsub]; exact jsCeilDiv_mul_self _ _ hw
    have hpos : (0 : Int) < (k0 : Int) := by exact_mod_cast hk
    simp only [headFillers, hceil]
    rw [if_pos hge, if_pos hpos, Int.toNat_natCast]
    apply List.map_congr_left
    intro j hj
    congr 1
    rw [hm]
    ring

theorem midFillers_aligned (w : Int) (hw : 0 < w) (c : Candle) (nextTime : Int) (g : Nat)
    (hg : nextTime - c.mts = (g : Int) * w) :
    midFillers w c nextTime
      = (List.range (g - 1)).map
          (fun i : Nat => _copyCandleWithNewTime c (c.mts + w * ((i : Int) + 1))) := by
  have hceil : jsCeilDiv (nextTime - c.mts) w = (g : Int) := by
    rw [hg]; exact jsCeilDiv_mul_self _ _ hw
  have htn : ((g : Int) - 1).toNat = g - 1 := by omega
  simp only [midFillers, hceil]
  by_cases hgt : ((g : Int) - 1) > 0
  · rw [if_pos hgt, htn]
  · rw [if_neg hgt]
    have hz : g - 1 = 0 := by omega
    rw [hz]
    simp

theorem bucketGrid_cons (a w : Int) (cnt : Nat) :
    bucketGrid a (cnt + 1) w = a :: bucketGrid (a + w) cnt w := by
  unfold bucketGrid
  rw [List.range_succ_eq_map]
  simp only [List.map_cons, List.map_map, Nat.cast_zero, zero_mul, add_zero]
  congr 1
  apply List.map_congr_left
  intro j hj
  simp only [Function.comp_apply]
  push_cast
  ring

theorem bucketGrid_eq_cons (a w : Int) (cnt : Nat) (h : 1 ≤ cnt) :
    bucketGrid a cnt w = a :: bucketGrid (a + w) (cnt - 1) w := by
  obtain ⟨m, rfl⟩ : ∃ m, cnt = m + 1 := ⟨cnt - 1, by omega⟩
  rw [bucketGrid_cons]
  simp

theorem bucketGrid_append (a w : Int) (m k : Nat) :
    bucketGrid a (m + k) w = bucketGrid a m w ++ bucketGrid (a + (m : Int) * w) k w := by
  unfold bucketGrid
  rw [List.range_add, List.map_append, List.map_map]
  congr 1
  apply List.map_congr_left
  intro j hj
  simp only [Function.comp_apply]
  push_cast
  ring

theorem goPad_aligned (w s : Int) (hw : 0 < w) (n : Nat) :
    ∀ (cs : List Candle) (c : Candle) (k0 : Nat),
      c.mts = s + (k0 : Int) * w → k0 < n →
      (∀ x ∈ cs, ∃ k : Nat, k < n ∧ x.mts = s + (k : Int) * w) →
      (c :: cs).Pairwise (fun a b => a.mts < b.mts) →
      (goPad w (s + (n : Int) * w) (c :: cs)).map Candle.mts
        = bucketGrid c.mts (n - k0) w := by
  intro cs
  induction cs with
  | nil =>
    intro c k0 hm hk0 _ _
    have hg : (s + (n : Int) * w) - c.mts = ((n - k0 : Nat) : Int) * w := by
      rw [hm]
      push_cast [Nat.cast_sub hk0.le]
      ring
    rw [goPad]
    simp only [nextTimeAfter]
    rw [midFillers_aligned w hw c _ (n - k0) hg]
    simp only [goPad, List.append_nil, List.map_cons, List.map_map]
    rw [bucketGrid_eq_cons _ _ _ (by omega)]
    congr 1
    unfold bucketGrid
    apply List.map_congr_left
    intro j hj
    simp only [Function.comp_apply, _copyCandleWithNewTime]
    ring
  | cons c2 cs ih =>
    intro c k0 hm hk0 halign hpair
    obtain ⟨k1, hk1n, hm1⟩ := halign c2 (List.mem_cons_self _ _)
    have hlt : c.mts < c2.mts := (List.pairwise_cons.mp hpair).1 c2 (List.mem_cons_self _ _)
    have hk01 : k0 < k1 := by
      rw [hm, hm1] at hlt
      have h2 : (k0 : Int) * w < (k1 : Int) * w := by omega
      have h3 : (k0 : Int) < (k1 : Int) := lt_of_mul_lt_mul_right h2 (le_of_lt hw)
      exact_mod_cast h3
    have hg : c2.mts - c.mts = ((k1 - k0 : Nat) : Int) * w := by
      rw [hm, hm1]
      push_cast [Nat.cast_sub hk01.le]
      ring
    rw [goPad]
    simp only [nextTimeAfter]
    rw [midFillers_aligned w hw c c2.mts (k1 - k0) hg]
    have ihres := ih c2 k1 hm1 hk1n
      (fun x hx => halign x (List.mem_cons_of_mem _ hx)) (List.pairwise_cons.mp hpair).2
    simp only [List.map_cons, List.map_append, List.map_map]
    rw [ihres]
    have hsplit : n - k0 = (k1 - k0) + (n - k1) := by omega
    rw [hsplit, bucketGrid_append]
    have hc2 : c.mts + ((k1 - k0 : Nat) : Int) * w = c2.mts := by
      rw [hm, hm1]
      push_cast [Nat.cast_sub hk01.le]
      ring
    rw [hc2, ← List.cons_append]
    congr 1
    rw [bucketGrid_eq_cons _ _ _ (by omega)]
    congr 1
    unfold bucketGrid
    apply List.map_congr_left
    intro j hj
    simp only [Function.comp_apply, _copyCandleWithNewTime]
    ring


theorem mem_goPad_of_mem (w eT : Int) :
    ∀ (cs : List Candle) (x : Candle), x ∈ cs → x ∈ goPad w eT cs := by
  intro cs
  induction cs with
  | nil => intro x hx; exact absurd hx (List.not_mem_nil x)
  | cons c cs ih =>
    intro x hx
    rw [goPad]
    rcases List.mem_cons.mp hx with rfl | hx
    · exact List.mem_cons_self _ _
    · exact List.mem_cons_of_mem _ (List.mem_append.mpr (Or.inr (ih x hx)))

theorem midFillers_mem (w : Int) (hw : 0 < w) (c : Candle) (nextTime : Int) :
    ∀ p ∈ midFillers w c nextTime,
      p = _copyCandleWithNewTime c p.mts ∧ c.mts < p.mts ∧ p.mts < nextTime := by
  intro p hp
  simp only [midFillers] at hp
  by_cases hgt : jsCeilDiv (nextTime - c.mts) w - 1 > 0
  · rw [if_pos hgt] at hp
    obtain ⟨i, hi, rfl⟩ := List.mem_map.mp hp
    have hin : i < (jsCeilDiv (nextTime - c.mts) w - 1).toNat := List.mem_range.mp hi
    have hi1 : (i : Int) + 1 ≤ jsCeilDiv (nextTime - c.mts) w - 1 := by omega
    refine ⟨rfl, ?_, ?_⟩
    · simp only [_copyCandleWithNewTime]
      have h1 : (0 : Int) < w * ((i : Int) + 1) := mul_pos hw (by positivity)
      linarith
    · simp only [_copyCandleWithNewTime]
      have h4 := jsCeilDiv_pred_mul_lt (nextTime - c.mts) w hw
      have h3 : w * ((i : Int) + 1) ≤ w * (jsCeilDiv (nextTime - c.mts) w - 1) :=
        mul_le_mul_of_nonneg_left hi1 (le_of_lt hw)
      have h5 : w * (jsCeilDiv (nextTime - c.mts) w - 1)
          = (jsCeilDiv (nextTime - c.mts) w - 1) * w := mul_comm _ _
      linarith
  · rw [if_neg hgt] at hp
    exact absurd hp (List.not_mem_nil p)

theorem headFillers_mem (w s : Int) (hw : 0 < w) (c : Candle) (k0 : Nat)
    (hm : c.mts = s + (k0 : Int) * w) :
    ∀ p ∈ headFillers w s c, p = _copyCandleWithNewTime c p.mts ∧ p.mts < c.mts := by
  rw [headFillers_eq_map_grid w s hw c k0 hm]
  intro p hp
  obtain ⟨j, hj, rfl⟩ := List.mem_map.mp hp
  have hjk : j < k0 := List.mem_range.mp hj
  refine ⟨rfl, ?_⟩
  simp only [_copyCandleWithNewTime]
  rw [hm]
  have hj1 : (j : Int) < (k0 : Int) := by exact_mod_cast hjk
  have := mul_lt_mul_of_pos_right hj1 hw
  linarith

theorem goPad_mem_characterize (w eT : Int) (hw : 0 < w) :
    ∀ (cs : List Candle), cs.Pairwise (fun a b => a.mts < b.mts) →
      ∀ p ∈ goPad w eT cs, p ∈ cs ∨
        ∃ c ∈ cs, p = _copyCandleWithNewTime c p.mts ∧ c.mts < p.mts ∧
          ∀ x ∈ cs, x.mts < p.mts → x.mts ≤ c.mts := by
  intro cs
  induction cs with
  | nil =>
    intro _ p hp
    rw [goPad] at hp
    exact absurd hp (List.not_mem_nil p)
  | cons c cs ih =>
    intro hpair p hp
    rw [goPad] at hp
    rcases List.mem_cons.mp hp with rfl | hp
    · exact Or.inl (List.mem_cons_self _ _)
    rcases List.mem_append.mp hp with hp | hp
    · right
      obtain ⟨hcopy, hltc, hltn⟩ := midFillers_mem w hw c (nextTimeAfter eT cs) p hp
      refine ⟨c, List.mem_cons_self _ _, hcopy, hltc, ?_⟩
      intro x hx hxlt
      rcases List.mem_cons.mp hx with rfl | hx
      · exact le_refl _
      · exfalso
        have hnext : nextTimeAfter eT cs ≤ x.mts := by
          cases cs with
          | nil => exact absurd hx (List.not_mem_nil x)
          | cons c2 cs2 =>
            simp only [nextTimeAfter]
            rcases List.mem_cons.mp hx with rfl | hx2
            · exact le_refl _
            · exact le_of_lt
                (((List.pairwise_cons.mp (List.pairwise_cons.mp hpair).2).1) x hx2)
        linarith
    · rcases ih (List.pairwise_cons.mp hpair).2 p hp with hin | ⟨c2, hc2, hcopy, hlt2, hgr⟩
      · exact Or.inl (List.mem_cons_of_mem _ hin)
      · right
        refine ⟨c2, List.mem_cons_of_mem _ hc2, hcopy, hlt2, ?_⟩
        intro x hx hxlt
        rcases List.mem_cons.mp hx with rfl | hx
        · exact le_of_lt ((List.pairwise_cons.mp hpair).1 c2 hc2)
        · exact hgr x hx hxlt


theorem copyCandle_props (c : Candle) (p : Candle)
    (hcopy : p = _copyCandleWithNewTime c p.mts) :
    p.volume = 0 ∧ p.open_ = p.close ∧ p.high = p.close ∧ p.low = p.close ∧
      p.close = c.close := by
  rw [hcopy]
  simp [_copyCandleWithNewTime]

/-- C7 amended: for a NONEMPTY input list whose candles have strictly
increasing `mts`, each on the aligned grid `start + k·w` within
`[start, start + n·w)`, `_padCandles` returns exactly the buckets
`start + k·w` for `k < n` in order (so length `(end − start)/w = n`, each
bucket exactly once), contains every input candle, and each non-input
entry is a zero-volume synthetic whose OHLC all equal the close of its
source candle — the latest input candle preceding it, or, for buckets
before the first input candle, the first input candle (back-projection).
The unamended claim fails on the empty list, where the padded output is
empty instead of `(end − start)/w` buckets long. -/
theorem C7_amended_padding (candles : List Candle) (w s : Int) (n : Nat) (hw : 0 < w)
    (hne : candles ≠ [])
    (hsort : candles.Pairwise (fun a b => a.mts < b.mts))
    (halign : ∀ c ∈ candles, ∃ k : Nat, k < n ∧ c.mts = s + (k : Int) * w) :
    (_padCandles candles w s (s + (n : Int) * w)).map Candle.mts = bucketGrid s n w ∧
    (_padCandles candles w s (s + (n : Int) * w)).length = n ∧
    (∀ c ∈ candles, c ∈ _padCandles candles w s (s + (n : Int) * w)) ∧
    (∀ p ∈ _padCandles candles w s (s + (n : Int) * w), p ∈ candles ∨
      (p.volume = 0 ∧ p.open_ = p.close ∧ p.high = p.close ∧ p.low = p.close ∧
       ∃ c ∈ candles, p.close = c.close ∧ p = _copyCandleWithNewTime c p.mts ∧
         ((c.mts < p.mts ∧ ∀ x ∈ candles, x.mts < p.mts → x.mts ≤ c.mts) ∨
          (p.mts < c.mts ∧ candles.head? = some c ∧ ∀ x ∈ candles, p.mts < x.mts)))) := by
  cases candles with
  | nil => exact absurd rfl hne
  | cons c0 cs =>
  obtain ⟨k0, hk0n, hm0⟩ := halign c0 (List.mem_cons_self _ _)
  rw [padCandles_eq_padRec]
  have hpadrec : padRec (c0 :: cs) w s (s + (n : Int) * w)
      = headFillers w s c0 ++ goPad w (s + (n : Int) * w) (c0 :: cs) := rfl
  rw [hpadrec]
  have hhead : (headFillers w s c0).map Candle.mts = bucketGrid s k0 w := by
    rw [headFillers_eq_map_grid w s hw c0 k0 hm0]
    unfold bucketGrid
    rw [List.map_map]
    apply List.map_congr_left
    intro j hj
    simp [Function.comp_apply, _copyCandleWithNewTime]
  have hgo := goPad_aligned w s hw n cs c0 k0 hm0 hk0n
    (fun x hx => halign x (List.mem_cons_of_mem _ hx)) hsort
  have hA : ((headFillers w s c0 ++ goPad w (s + (n : Int) * w) (c0 :: cs)).map Candle.mts)
      = bucketGrid s n w := by
    rw [List.map_append, hhead, hgo, hm0]
    conv_rhs => rw [show n = k0 + (n - k0) by omega]
    rw [bucketGrid_append]
  refine ⟨hA, ?_, ?_, ?_⟩
  · have hlen := congrArg List.length hA
    simpa [bucketGrid] using hlen
  · intro c hc
    exact List.mem_append.mpr (Or.inr (mem_goPad_of_mem w (s + (n : Int) * w) (c0 :: cs) c hc))
  · intro p hp
    rcases List.mem_append.mp hp with hp | hp
    · right
      obtain ⟨hcopy, hplt⟩ := headFillers_mem w s hw c0 k0 hm0 p hp
      obtain ⟨hv, ho, hh, hl, hcl⟩ := copyCandle_props c0 p hcopy
      refine ⟨hv, ho, hh, hl, c0, List.mem_cons_self _ _, hcl, hcopy, Or.inr ⟨hplt, rfl, ?_⟩⟩
      intro x hx
      rcases List.mem_cons.mp hx with rfl | hx
      · exact hplt
      · exact lt_trans hplt ((List.pairwise_cons.mp hsort).1 x hx)
    · rcases goPad_mem_characterize w (s + (n : Int) * w) hw (c0 :: cs) hsort p hp with
        hin | ⟨c, hc, hcopy, hlt, hgr⟩
      · exact Or.inl hin
      · right
        obtain ⟨hv, ho, hh, hl, hcl⟩ := copyCandle_props c p hcopy
        exact ⟨hv, ho, hh, hl, c, hc, hcl, hcopy, Or.inl ⟨hlt, hgr⟩⟩

/-- C7 counterexample: on the empty candle list (empty market history)
`_padCandles` returns the empty list, so the claimed output length
`(end − start)/w = 1` fails at `w = 60000`, `start = 0`, `end = 60000`. -/
theorem C7_empty_input_counterexample :
    _padCandles [] 60000 0 60000 = [] ∧
    (_padCandles [] 60000 0 60000).length ≠ (((60000 : Int) - 0) / 60000).toNat := by
  refine ⟨rfl, ?_⟩
  decide

/-- Witness for the amended C7: candles at `mts = 60000, 180000` with
`w = 60000`, `start = 0`, `n = 4` pad to the buckets
`0, 60000, 120000, 180000`. -/
theorem C7_amended_padding_witness :
    (_padCandles [mkCandle 60000 2, mkCandle 180000 5] 60000 0
        ((0 : Int) + ((4 : Nat) : Int) * 60000)).map Candle.mts = bucketGrid 0 4 60000 ∧
    (_padCandles [mkCandle 60000 2, mkCandle 180000 5] 60000 0
        ((0 : Int) + ((4 : Nat) : Int) * 60000)).length = 4 := by
  have h := C7_amended_padding [mkCandle 60000 2, mkCandle 180000 5] 60000 0 4 (by norm_num)
    (by simp) (by norm_num [List.pairwise_cons, mkCandle])
    (by
      intro c hc
      rcases List.mem_cons.mp hc with rfl | hc
      · exact ⟨1, by omega, by norm_num [mkCandle]⟩
      rcases List.mem_cons.mp hc with rfl | hc
      · exact ⟨3, by omega, by norm_num [mkCandle]⟩
      · exact absurd hc (List.not_mem_nil _))
  exact ⟨h.1, h.2.1⟩


end StrategyExec
